import Mathlib

/-!
Shallow embedding of `bigsi_rs` (src/src/lib.rs), a BIGSI-like bit-sliced
membership index.  Rows (`bv::BitVec`) are modelled as `List Bool`; the
64-bit xx-hash is an abstract parameter `hash : String → Nat → Nat`
(value, seed ↦ hash), since every claim is quantified over values and the
code only uses `hash(value, i) % m` as a bucket index.  Operations that can
panic in Rust (`BitVec::set` out of bounds, indexing, `merge` parameter
mismatch) return `Option`, with `none` marking the panic.
-/

namespace BigsiRs

/-- The `Bigsi` struct of src/src/lib.rs: a vector of bit rows, the number
of hash functions, and the number of accessions. -/
structure Bigsi where
  bigsi : List (List Bool)
  num_hashes : Nat
  accessions : Nat
deriving DecidableEq, Repr

/-- `Bigsi::new(m, n, eta)`: `m` rows, each an all-false row of width `n`. -/
def Bigsi.new (m n eta : Nat) : Bigsi :=
  { bigsi := List.replicate m (List.replicate n false)
    num_hashes := eta
    accessions := n }

/-- The bucket selected by hash seed `i` for value `v`:
`hash(value, i) % self.bigsi.len()` in the source. -/
def bucket (hash : String → Nat → Nat) (rows : List (List Bool)) (v : String) (i : Nat) : Nat :=
  hash v i % rows.length

/-- The row stored at position `j` (`[]` when out of range; with a nonempty
row list the bucket is always in range). -/
def rowAt (rows : List (List Bool)) (j : Nat) : List Bool :=
  (rows[j]?).getD []

/-- The loop body of `Bigsi::insert`: for each hash seed in the list, set
bit `a` of the selected row to true.  `BitVec::set` panics when the index
is out of bounds, hence `none` when `a` is not below the row's width. -/
def insertGo (hash : String → Nat → Nat) (v : String) (a : Nat) :
    List Nat → List (List Bool) → Option (List (List Bool))
  | [], rows => some rows
  | i :: is, rows =>
    match rows[bucket hash rows v i]? with
    | none => none
    | some row =>
      if a < row.length then
        insertGo hash v a is (rows.set (bucket hash rows v i) (row.set a true))
      else none

/-- `Bigsi::insert(accession, value)`; `none` models the panic. -/
def Bigsi.insert (hash : String → Nat → Nat) (B : Bigsi) (a : Nat) (v : String) :
    Option Bigsi :=
  (insertGo hash v a (List.range B.num_hashes) B.bigsi).map
    (fun rows => { B with bigsi := rows })

/-- `Bigsi::slim()`: every row equal to the all-false row of width
`accessions` is replaced by the width-0 `BitVec::new()`. -/
def Bigsi.slim (B : Bigsi) : Bigsi :=
  { B with
    bigsi := B.bigsi.map (fun r =>
      if r = List.replicate B.accessions false then [] else r) }

/-- Result of the hash-bucket loop shared by `get` and `get_bv`: a panic,
an early return on an empty (width-0) row, or the accumulated AND vector. -/
inductive QRes where
  | panic : QRes
  | empt : QRes
  | vec : List Bool → QRes
deriving DecidableEq, Repr

/-- The loop of `Bigsi::get` / `Bigsi::get_bv`: walk the hash seeds,
short-circuit when a selected row `is_empty()`, otherwise AND the row into
the accumulator (`bv` bit_and truncates to the shorter operand, as
`List.zipWith` does). -/
def getGo (hash : String → Nat → Nat) (v : String) (rows : List (List Bool)) :
    List Nat → List Bool → QRes
  | [], fv => .vec fv
  | i :: is, fv =>
    match rows[bucket hash rows v i]? with
    | none => .panic
    | some row =>
      if row.isEmpty then .empt
      else getGo hash v rows is (List.zipWith and fv row)

/-- `Bigsi::get(value)`: accumulate the AND of the selected rows starting
from all-true of width `accessions`, then collect the indices `0..accessions`
whose bit is true.  The final indexing loop `final_vec[item]` panics when
the accumulator is shorter than `accessions`. -/
def Bigsi.get (hash : String → Nat → Nat) (B : Bigsi) (v : String) : Option (List Nat) :=
  match getGo hash v B.bigsi (List.range B.num_hashes) (List.replicate B.accessions true) with
  | .panic => none
  | .empt => some []
  | .vec fv =>
    if B.accessions ≤ fv.length then
      some ((List.range B.accessions).filter (fun k => fv.getD k false))
    else none

/-- `Bigsi::get_bv(value)`: same loop, but the raw vector is returned; on
an empty bucket the empty row itself (`to_owned()`, i.e. `[]`) is returned. -/
def Bigsi.get_bv (hash : String → Nat → Nat) (B : Bigsi) (v : String) : Option (List Bool) :=
  match getGo hash v B.bigsi (List.range B.num_hashes) (List.replicate B.accessions true) with
  | .panic => none
  | .empt => some []
  | .vec fv => some fv

/-- The per-row combination of `Bigsi::merge`: concatenate, expanding a
width-0 side to all-false of its own accession count when the other side
is nonempty. -/
def mergeRow (n1 n2 : Nat) (x y : List Bool) : List Bool :=
  if x.length = 0 ∧ y.length > 0 then List.replicate n1 false ++ y
  else if x.length > 0 ∧ y.length = 0 then x ++ List.replicate n2 false
  else x ++ y

/-- `Bigsi::merge(other)`: panics (`none`) unless `num_hashes` and the row
counts agree; otherwise rows are combined pairwise and `accessions` are
added.  The parameters are checked before any row is rebuilt, as in the
source, and `other` is read-only. -/
def Bigsi.merge (A other : Bigsi) : Option Bigsi :=
  if A.num_hashes ≠ other.num_hashes ∨ A.bigsi.length ≠ other.bigsi.length then
    none
  else
    some
      { bigsi := List.zipWith (mergeRow A.accessions other.accessions) A.bigsi other.bigsi
        num_hashes := A.num_hashes
        accessions := A.accessions + other.accessions }

/-- Structural well-formedness maintained by the program: every row is
either the width-0 sentinel or has width exactly `accessions`. -/
def Wf (B : Bigsi) : Prop :=
  ∀ r ∈ B.bigsi, r = [] ∨ r.length = B.accessions

instance (B : Bigsi) : Decidable (Wf B) := by
  unfold Wf; infer_instance

/-- Bit `a` is set in every row selected by value `v` (and `a` is a live
accession): the state `insert a v` leaves behind at `v`'s buckets. -/
def Marked (hash : String → Nat → Nat) (a : Nat) (v : String) (B : Bigsi) : Prop :=
  a < B.accessions ∧
  ∀ i < B.num_hashes, (rowAt B.bigsi (bucket hash B.bigsi v i)).getD a false = true

/-- One completed mutating operation on an index: a successful `insert`, a
`slim`, or a successful `merge` with a well-formed other index (any index
the program can hand to `merge` is itself well-formed). -/
inductive Step (hash : String → Nat → Nat) : Bigsi → Bigsi → Prop where
  | insert {B B' : Bigsi} (a : Nat) (v : String) :
      Bigsi.insert hash B a v = some B' → Step hash B B'
  | slim (B : Bigsi) : Step hash B B.slim
  | merge {B B' : Bigsi} (other : Bigsi) :
      Wf other → Bigsi.merge B other = some B' → Step hash B B'

/-- Reflexive-transitive closure of `Step`: any sequence of completed
operations. -/
inductive Reach (hash : String → Nat → Nat) : Bigsi → Bigsi → Prop where
  | refl (B : Bigsi) : Reach hash B B
  | tail {B₁ B₂ B₃ : Bigsi} : Reach hash B₁ B₂ → Step hash B₂ B₃ → Reach hash B₁ B₃

/-- Bit `k` is true in every row visited for `v` (over hash seeds `< eta`). -/
def allBits (hash : String → Nat → Nat) (rows : List (List Bool)) (v : String)
    (eta k : Nat) : Bool :=
  (List.range eta).all (fun i => (rowAt rows (bucket hash rows v i)).getD k false)

/-- Some row visited for `v` is the width-0 sentinel. -/
def anyEmpty (hash : String → Nat → Nat) (rows : List (List Bool)) (v : String)
    (eta : Nat) : Bool :=
  (List.range eta).any (fun i => (rowAt rows (bucket hash rows v i)).isEmpty)

/-- Order-independent description of `get`'s result on a well-formed index:
empty when a visited row is the sentinel, else the accessions whose bit
survives the AND of all visited rows. -/
def hitsSpec (hash : String → Nat → Nat) (B : Bigsi) (v : String) : List Nat :=
  if anyEmpty hash B.bigsi v B.num_hashes then []
  else (List.range B.accessions).filter (fun k => allBits hash B.bigsi v B.num_hashes k)

/-- Modelled from the spec: the repository serializes via the external
`bincode`/`serde` crates (not under src/), which encode the struct as a
self-describing blob: the row list with each row's bit length and bit
content, then the hash count and the accession count (spec section 6).
One `Nat` per encoded field/bit. -/
def encBit (b : Bool) : Nat := if b then 1 else 0

/-- Modelled from the spec: each row is encoded as its bit length followed
by its bits. -/
def encodeRows : List (List Bool) → List Nat
  | [] => []
  | r :: rs => r.length :: (r.map encBit ++ encodeRows rs)

/-- Modelled from the spec: the whole structure as one blob — row count,
rows, hash count, accession count. -/
def serializeBigsi (B : Bigsi) : List Nat :=
  B.bigsi.length :: (encodeRows B.bigsi ++ [B.num_hashes, B.accessions])

/-- Modelled from the spec: decode `n` bits, rejecting malformed input. -/
def decodeBits : Nat → List Nat → Option (List Bool × List Nat)
  | 0, l => some ([], l)
  | _ + 1, [] => none
  | n + 1, x :: l =>
    if x ≤ 1 then
      match decodeBits n l with
      | none => none
      | some (bs, rest) => some ((x == 1) :: bs, rest)
    else none

/-- Modelled from the spec: decode `c` length-prefixed rows. -/
def decodeRows : Nat → List Nat → Option (List (List Bool) × List Nat)
  | 0, l => some ([], l)
  | _ + 1, [] => none
  | c + 1, len :: l =>
    match decodeBits len l with
    | none => none
    | some (r, rest) =>
      match decodeRows c rest with
      | none => none
      | some (rs, rest2) => some (r :: rs, rest2)

/-- Modelled from the spec: decode a whole index from a blob; malformed
input is a decode failure (`none`), never a crash or a corrupt structure. -/
def deserializeBigsi : List Nat → Option Bigsi
  | [] => none
  | m :: l =>
    match decodeRows m l with
    | none => none
    | some (rows, rest) =>
      match rest with
      | eta :: acc :: _ => some { bigsi := rows, num_hashes := eta, accessions := acc }
      | _ => none

/-! ### Low-level row lemmas -/

lemma getD_zipWith_and (l₁ l₂ : List Bool) (k : Nat) :
    (List.zipWith and l₁ l₂).getD k false = (l₁.getD k false && l₂.getD k false) := by
  simp only [List.getD_eq_getElem?_getD, List.getElem?_zipWith]
  cases h₁ : l₁[k]? <;> cases h₂ : l₂[k]? <;> simp

lemma rowAt_eq_getElem (rows : List (List Bool)) (j : Nat) (h : j < rows.length) :
    rowAt rows j = rows[j] := by
  simp [rowAt, List.getElem?_eq_getElem h]

lemma rowAt_mem (rows : List (List Bool)) (j : Nat) (h : j < rows.length) :
    rowAt rows j ∈ rows := by
  rw [rowAt_eq_getElem rows j h]; exact List.getElem_mem h

lemma rowAt_of_ge (rows : List (List Bool)) (j : Nat) (h : rows.length ≤ j) :
    rowAt rows j = [] := by
  simp [rowAt, List.getElem?_eq_none h]

lemma bucket_lt (hash : String → Nat → Nat) (rows : List (List Bool)) (v : String)
    (i : Nat) (h : rows ≠ []) : bucket hash rows v i < rows.length :=
  Nat.mod_lt _ (List.length_pos.mpr h)

lemma rowAt_set_self (rows : List (List Bool)) (j : Nat) (r : List Bool)
    (h : j < rows.length) : rowAt (rows.set j r) j = r := by
  simp [rowAt, List.getElem?_set_eq_of_lt r h]

lemma rowAt_set_ne (rows : List (List Bool)) (j k : Nat) (r : List Bool)
    (h : j ≠ k) : rowAt (rows.set j r) k = rowAt rows k := by
  simp [rowAt, List.getElem?_set_ne h]

lemma getD_set_true (row : List Bool) (a k : Nat) (hb : row.getD k false = true) :
    (row.set a true).getD k false = true := by
  by_cases hka : k = a
  · subst hka
    by_cases hl : k < row.length
    · simp [List.getD_eq_getElem?_getD, List.getElem?_set_eq_of_lt true hl]
    · rw [List.set_eq_of_length_le (Nat.le_of_not_lt hl)]; exact hb
  · rw [List.getD_eq_getElem?_getD, List.getElem?_set_ne fun h => hka h.symm,
      ← List.getD_eq_getElem?_getD]
    exact hb

lemma getD_set_self_true (row : List Bool) (a : Nat) (h : a < row.length) :
    (row.set a true).getD a false = true := by
  simp [List.getD_eq_getElem?_getD, List.getElem?_set_eq_of_lt true h]

/-! ### `insertGo` invariants -/

lemma insertGo_length (hash : String → Nat → Nat) (v : String) (a : Nat) :
    ∀ (is : List Nat) (rows rows' : List (List Bool)),
      insertGo hash v a is rows = some rows' → rows'.length = rows.length := by
  intro is
  induction is with
  | nil =>
    intro rows rows' h
    simp only [insertGo, Option.some.injEq] at h
    rw [← h]
  | cons i is ih =>
    intro rows rows' h
    simp only [insertGo] at h
    cases hg : rows[bucket hash rows v i]? with
    | none => rw [hg] at h; exact absurd h (by simp)
    | some row =>
      rw [hg] at h
      dsimp only at h
      by_cases hl : a < row.length
      · rw [if_pos hl] at h
        rw [ih _ _ h, List.length_set]
      · rw [if_neg hl] at h; exact absurd h (by simp)

lemma rowAt_length_set (rows : List (List Bool)) (idx a : Nat) (row : List Bool)
    (hg : rows[idx]? = some row) (j : Nat) :
    (rowAt (rows.set idx (row.set a true)) j).length = (rowAt rows j).length := by
  obtain ⟨hlt, heq⟩ := List.getElem?_eq_some.mp hg
  by_cases hj : j = idx
  · subst hj
    rw [rowAt_set_self _ _ _ hlt, rowAt_eq_getElem _ _ hlt, heq, List.length_set]
  · rw [rowAt_set_ne _ _ _ _ fun h => hj h.symm]

lemma insertGo_rowLen (hash : String → Nat → Nat) (v : String) (a : Nat) :
    ∀ (is : List Nat) (rows rows' : List (List Bool)),
      insertGo hash v a is rows = some rows' →
      ∀ j, (rowAt rows' j).length = (rowAt rows j).length := by
  intro is
  induction is with
  | nil =>
    intro rows rows' h j
    simp only [insertGo, Option.some.injEq] at h
    rw [← h]
  | cons i is ih =>
    intro rows rows' h j
    simp only [insertGo] at h
    cases hg : rows[bucket hash rows v i]? with
    | none => rw [hg] at h; exact absurd h (by simp)
    | some row =>
      rw [hg] at h
      dsimp only at h
      by_cases hl : a < row.length
      · rw [if_pos hl] at h
        rw [ih _ _ h j, rowAt_length_set _ _ _ _ hg j]
      · rw [if_neg hl] at h; exact absurd h (by simp)

lemma insertGo_mono (hash : String → Nat → Nat) (v : String) (a : Nat) :
    ∀ (is : List Nat) (rows rows' : List (List Bool)),
      insertGo hash v a is rows = some rows' →
      ∀ j k, (rowAt rows j).getD k false = true → (rowAt rows' j).getD k false = true := by
  intro is
  induction is with
  | nil =>
    intro rows rows' h j k hb
    simp only [insertGo, Option.some.injEq] at h
    rw [← h]; exact hb
  | cons i is ih =>
    intro rows rows' h j k hb
    simp only [insertGo] at h
    cases hg : rows[bucket hash rows v i]? with
    | none => rw [hg] at h; exact absurd h (by simp)
    | some row =>
      rw [hg] at h
      dsimp only at h
      by_cases hl : a < row.length
      · rw [if_pos hl] at h
        refine ih _ _ h j k ?_
        obtain ⟨hlt, heq⟩ := List.getElem?_eq_some.mp hg
        by_cases hj : j = bucket hash rows v i
        · subst hj
          rw [rowAt_set_self _ _ _ hlt]
          rw [rowAt_eq_getElem _ _ hlt, heq] at hb
          exact getD_set_true _ _ _ hb
        · rw [rowAt_set_ne _ _ _ _ fun h => hj h.symm]; exact hb
      · rw [if_neg hl] at h; exact absurd h (by simp)

lemma insertGo_marks (hash : String → Nat → Nat) (v : String) (a : Nat) :
    ∀ (is : List Nat) (rows rows' : List (List Bool)),
      insertGo hash v a is rows = some rows' →
      ∀ i ∈ is, (rowAt rows' (bucket hash rows' v i)).getD a false = true := by
  intro is
  induction is with
  | nil => intro rows rows' _ i hi; exact absurd hi (List.not_mem_nil i)
  | cons i₀ is ih =>
    intro rows rows' h i hi
    simp only [insertGo] at h
    cases hg : rows[bucket hash rows v i₀]? with
    | none => rw [hg] at h; exact absurd h (by simp)
    | some row =>
      rw [hg] at h
      dsimp only at h
      by_cases hl : a < row.length
      · rw [if_pos hl] at h
        rcases List.mem_cons.mp hi with hi₀ | hitail
        · subst hi₀
          obtain ⟨hlt, _⟩ := List.getElem?_eq_some.mp hg
          have hlen : rows'.length = rows.length := by
            rw [insertGo_length hash v a _ _ _ h, List.length_set]
          have hbk : bucket hash rows' v i = bucket hash rows v i := by
            simp [bucket, hlen]
          rw [hbk]
          refine insertGo_mono hash v a _ _ _ h _ a ?_
          rw [rowAt_set_self _ _ _ hlt]
          exact getD_set_self_true _ _ hl
        · exact ih _ _ h i hitail
      · rw [if_neg hl] at h; exact absurd h (by simp)

lemma insertGo_none (hash : String → Nat → Nat) (v : String) (a : Nat) :
    ∀ (is : List Nat) (rows : List (List Bool)),
      (∃ i ∈ is, (rowAt rows (bucket hash rows v i)).length ≤ a) →
      insertGo hash v a is rows = none := by
  intro is
  induction is with
  | nil => intro rows hex; exact absurd hex (by simp)
  | cons i₀ is ih =>
    intro rows hex
    obtain ⟨i, hi, hle⟩ := hex
    simp only [insertGo]
    cases hg : rows[bucket hash rows v i₀]? with
    | none => rfl
    | some row =>
      dsimp only
      by_cases hl : a < row.length
      · rw [if_pos hl]
        obtain ⟨hlt, heq⟩ := List.getElem?_eq_some.mp hg
        rcases List.mem_cons.mp hi with hi₀ | hitail
        · subst hi₀
          rw [rowAt_eq_getElem _ _ hlt, heq] at hle
          exact absurd hl (Nat.not_lt.mpr hle)
        · refine ih _ ⟨i, hitail, ?_⟩
          have hlen : (rows.set (bucket hash rows v i₀) (row.set a true)).length
              = rows.length := List.length_set _ _ _
          have hbk : bucket hash (rows.set (bucket hash rows v i₀) (row.set a true)) v i
              = bucket hash rows v i := by simp [bucket, hlen]
          rw [hbk, rowAt_length_set _ _ _ _ hg]
          exact hle
      · rw [if_neg hl]

lemma insert_eq_some (hash : String → Nat → Nat) {B B₁ : Bigsi} {a : Nat} {v : String}
    (h : Bigsi.insert hash B a v = some B₁) :
    insertGo hash v a (List.range B.num_hashes) B.bigsi = some B₁.bigsi ∧
      B₁.num_hashes = B.num_hashes ∧ B₁.accessions = B.accessions := by
  unfold Bigsi.insert at h
  cases hg : insertGo hash v a (List.range B.num_hashes) B.bigsi with
  | none => rw [hg] at h; exact absurd h (by simp)
  | some rows' =>
    rw [hg] at h
    simp only [Option.map_some', Option.some.injEq] at h
    rw [← h]
    exact ⟨rfl, rfl, rfl⟩

/-! ### `getGo` and the order-free description of `get` -/

lemma getGo_empt (hash : String → Nat → Nat) (v : String) (rows : List (List Bool))
    (hm : rows ≠ []) :
    ∀ (is : List Nat) (fv : List Bool),
      (∃ i ∈ is, rowAt rows (bucket hash rows v i) = []) →
      getGo hash v rows is fv = .empt := by
  intro is
  induction is with
  | nil => intro fv hex; exact absurd hex (by simp)
  | cons i₀ is ih =>
    intro fv hex
    obtain ⟨i, hi, hemp⟩ := hex
    have hlt := bucket_lt hash rows v i₀ hm
    simp only [getGo]
    rw [List.getElem?_eq_getElem hlt]
    dsimp only
    by_cases he : rows[bucket hash rows v i₀].isEmpty
    · rw [if_pos he]
    · rw [if_neg he]
      rcases List.mem_cons.mp hi with hi₀ | hitail
      · subst hi₀
        rw [rowAt_eq_getElem _ _ hlt] at hemp
        exact absurd (List.isEmpty_iff.mpr hemp) he
      · exact ih _ ⟨i, hitail, hemp⟩

lemma getGo_vec (hash : String → Nat → Nat) (v : String) (rows : List (List Bool))
    (hm : rows ≠ []) (W : Nat) (hW : ∀ r ∈ rows, r = [] ∨ r.length = W) :
    ∀ (is : List Nat) (fv : List Bool), fv.length = W →
      (∀ i ∈ is, rowAt rows (bucket hash rows v i) ≠ []) →
      ∃ fv', getGo hash v rows is fv = .vec fv' ∧ fv'.length = W ∧
        ∀ k, fv'.getD k false =
          (fv.getD k false &&
            is.all fun i => (rowAt rows (bucket hash rows v i)).getD k false) := by
  intro is
  induction is with
  | nil => intro fv hfv _; exact ⟨fv, rfl, hfv, by simp⟩
  | cons i₀ is ih =>
    intro fv hfv hall
    have hlt := bucket_lt hash rows v i₀ hm
    have hne : rows[bucket hash rows v i₀] ≠ [] := by
      have := hall i₀ (List.mem_cons_self i₀ is)
      rwa [rowAt_eq_getElem _ _ hlt] at this
    have hlen : rows[bucket hash rows v i₀].length = W := by
      rcases hW _ (List.getElem_mem hlt) with h | h
      · exact absurd h hne
      · exact h
    simp only [getGo]
    rw [List.getElem?_eq_getElem hlt]
    dsimp only
    rw [if_neg fun h => hne (List.isEmpty_iff.mp h)]
    have hfv' : (List.zipWith and fv rows[bucket hash rows v i₀]).length = W := by
      rw [List.length_zipWith, hfv, hlen, min_self]
    obtain ⟨fv', h1, h2, h3⟩ := ih _ hfv' fun i hi => hall i (List.mem_cons_of_mem _ hi)
    refine ⟨fv', h1, h2, fun k => ?_⟩
    rw [h3 k, getD_zipWith_and, List.all_cons, rowAt_eq_getElem _ _ hlt, Bool.and_assoc]

lemma getGo_foldl (hash : String → Nat → Nat) (v : String) (rows : List (List Bool))
    (hm : rows ≠ []) :
    ∀ (is : List Nat) (fv : List Bool),
      (∀ i ∈ is, rowAt rows (bucket hash rows v i) ≠ []) →
      getGo hash v rows is fv =
        .vec (is.foldl
          (fun acc i => List.zipWith and acc (rowAt rows (bucket hash rows v i))) fv) := by
  intro is
  induction is with
  | nil => intro fv _; rfl
  | cons i₀ is ih =>
    intro fv hall
    have hlt := bucket_lt hash rows v i₀ hm
    have hne : rows[bucket hash rows v i₀] ≠ [] := by
      have := hall i₀ (List.mem_cons_self i₀ is)
      rwa [rowAt_eq_getElem _ _ hlt] at this
    simp only [getGo]
    rw [List.getElem?_eq_getElem hlt]
    dsimp only
    rw [if_neg fun h => hne (List.isEmpty_iff.mp h)]
    rw [ih _ fun i hi => hall i (List.mem_cons_of_mem _ hi), List.foldl_cons,
      rowAt_eq_getElem _ _ hlt]

lemma anyEmpty_iff (hash : String → Nat → Nat) (rows : List (List Bool)) (v : String)
    (eta : Nat) :
    anyEmpty hash rows v eta = true ↔
      ∃ i ∈ List.range eta, rowAt rows (bucket hash rows v i) = [] := by
  unfold anyEmpty
  rw [List.any_eq_true]
  constructor
  · rintro ⟨i, hi, he⟩; exact ⟨i, hi, List.isEmpty_iff.mp he⟩
  · rintro ⟨i, hi, he⟩; exact ⟨i, hi, List.isEmpty_iff.mpr he⟩

lemma get_eq_hitsSpec (hash : String → Nat → Nat) (B : Bigsi) (v : String)
    (hw : Wf B) (hm : B.bigsi ≠ []) :
    Bigsi.get hash B v = some (hitsSpec hash B v) := by
  unfold Bigsi.get hitsSpec
  by_cases he : anyEmpty hash B.bigsi v B.num_hashes
  · obtain ⟨i, hi, hemp⟩ := (anyEmpty_iff hash B.bigsi v B.num_hashes).mp he
    rw [getGo_empt hash v B.bigsi hm _ _ ⟨i, hi, hemp⟩, if_pos he]
  · have hall : ∀ i ∈ List.range B.num_hashes, rowAt B.bigsi (bucket hash B.bigsi v i) ≠ [] := by
      intro i hi hcontra
      exact he ((anyEmpty_iff hash B.bigsi v B.num_hashes).mpr ⟨i, hi, hcontra⟩)
    obtain ⟨fv', h1, h2, h3⟩ := getGo_vec hash v B.bigsi hm B.accessions hw
      (List.range B.num_hashes) (List.replicate B.accessions true)
      (List.length_replicate _ _) hall
    rw [h1]
    dsimp only
    rw [if_pos (le_of_eq h2.symm), if_neg he]
    congr 1
    apply List.filter_congr
    intro k hk
    have hrep : (List.replicate B.accessions true).getD k false = true := by
      rw [List.getD_eq_getElem?_getD, List.getElem?_replicate,
        if_pos (List.mem_range.mp hk)]
      rfl
    rw [h3 k, hrep, Bool.true_and]
    rfl

/-! ### More row helpers -/

lemma getD_append_left (l₁ l₂ : List Bool) (i : Nat) (h : i < l₁.length) :
    (l₁ ++ l₂).getD i false = l₁.getD i false := by
  rw [List.getD_eq_getElem?_getD, List.getD_eq_getElem?_getD, List.getElem?_append,
    if_pos h]

lemma getD_append_right (l₁ l₂ : List Bool) (i : Nat) (h : l₁.length ≤ i) :
    (l₁ ++ l₂).getD i false = l₂.getD (i - l₁.length) false := by
  rw [List.getD_eq_getElem?_getD, List.getD_eq_getElem?_getD,
    List.getElem?_append_right h]

lemma getD_replicate_false (n i : Nat) : (List.replicate n false).getD i false = false := by
  rw [List.getD_eq_getElem?_getD, List.getElem?_replicate]
  split_ifs <;> rfl

lemma getD_true_lt (l : List Bool) (k : Nat) (h : l.getD k false = true) : k < l.length := by
  by_contra hk
  rw [List.getD_eq_getElem?_getD, List.getElem?_eq_none (Nat.le_of_not_lt hk)] at h
  exact Bool.noConfusion h

/-! ### `slim` lemmas -/

lemma slim_accessions (B : Bigsi) : B.slim.accessions = B.accessions := rfl

lemma slim_num_hashes (B : Bigsi) : B.slim.num_hashes = B.num_hashes := rfl

lemma slim_length (B : Bigsi) : B.slim.bigsi.length = B.bigsi.length :=
  List.length_map _ _

lemma rowAt_slim (B : Bigsi) (j : Nat) :
    rowAt B.slim.bigsi j =
      if rowAt B.bigsi j = List.replicate B.accessions false then []
      else rowAt B.bigsi j := by
  by_cases hj : j < B.bigsi.length
  · have hj' : j < B.slim.bigsi.length := by rw [slim_length]; exact hj
    rw [rowAt_eq_getElem _ _ hj', rowAt_eq_getElem _ _ hj]
    exact List.getElem_map _
  · rw [rowAt_of_ge _ _ (Nat.le_of_not_lt hj),
      rowAt_of_ge _ _ (by rw [slim_length]; exact Nat.le_of_not_lt hj)]
    split_ifs <;> rfl

/-! ### Well-formedness -/

lemma Wf_iff (B : Bigsi) :
    Wf B ↔ ∀ j, rowAt B.bigsi j = [] ∨ (rowAt B.bigsi j).length = B.accessions := by
  constructor
  · intro h j
    by_cases hj : j < B.bigsi.length
    · exact h _ (rowAt_mem _ _ hj)
    · left; exact rowAt_of_ge _ _ (Nat.le_of_not_lt hj)
  · intro h r hr
    obtain ⟨j, hj, heq⟩ := List.mem_iff_getElem.mp hr
    have := h j
    rw [rowAt_eq_getElem _ _ hj, heq] at this
    exact this

lemma Wf_new (m n eta : Nat) : Wf (Bigsi.new m n eta) := by
  intro r hr
  right
  rw [List.eq_of_mem_replicate hr]
  exact List.length_replicate _ _

lemma Wf_slim {B : Bigsi} (h : Wf B) : Wf B.slim := by
  intro r hr
  obtain ⟨r₀, hr₀, heq⟩ := List.mem_map.mp hr
  rw [slim_accessions]
  by_cases hrep : r₀ = List.replicate B.accessions false
  · left; rw [← heq, if_pos hrep]
  · rw [← heq, if_neg hrep]; exact h _ hr₀

lemma Wf_insert (hash : String → Nat → Nat) {B B₁ : Bigsi} {a : Nat} {v : String}
    (hw : Wf B) (h : Bigsi.insert hash B a v = some B₁) : Wf B₁ := by
  obtain ⟨hgo, _, hacc⟩ := insert_eq_some hash h
  rw [Wf_iff] at hw ⊢
  intro j
  have hlen := insertGo_rowLen hash v a _ _ _ hgo j
  rw [hacc]
  rcases hw j with h0 | h0
  · left
    rw [← List.length_eq_zero, hlen, h0]
    rfl
  · right; rw [hlen]; exact h0

/-! ### `merge` lemmas -/

lemma merge_eq_some {A other C : Bigsi} (h : Bigsi.merge A other = some C) :
    A.num_hashes = other.num_hashes ∧ A.bigsi.length = other.bigsi.length ∧
      C.bigsi = List.zipWith (mergeRow A.accessions other.accessions) A.bigsi other.bigsi ∧
      C.num_hashes = A.num_hashes ∧ C.accessions = A.accessions + other.accessions := by
  unfold Bigsi.merge at h
  by_cases hc : A.num_hashes ≠ other.num_hashes ∨ A.bigsi.length ≠ other.bigsi.length
  · rw [if_pos hc] at h; exact absurd h (by simp)
  · rw [if_neg hc] at h
    push_neg at hc
    simp only [Option.some.injEq] at h
    rw [← h]
    exact ⟨hc.1, hc.2, rfl, rfl, rfl⟩

lemma merge_length {A other C : Bigsi} (h : Bigsi.merge A other = some C) :
    C.bigsi.length = A.bigsi.length := by
  obtain ⟨_, h2, h3, _, _⟩ := merge_eq_some h
  rw [h3, List.length_zipWith, ← h2, min_self]

lemma merge_rowAt {A other C : Bigsi} (h : Bigsi.merge A other = some C) (j : Nat)
    (hj : j < A.bigsi.length) :
    rowAt C.bigsi j =
      mergeRow A.accessions other.accessions (rowAt A.bigsi j) (rowAt other.bigsi j) := by
  obtain ⟨_, h2, h3, _, _⟩ := merge_eq_some h
  have hj' : j < other.bigsi.length := h2 ▸ hj
  rw [rowAt_eq_getElem _ _ hj, rowAt_eq_getElem _ _ hj']
  unfold rowAt
  rw [h3, List.getElem?_zipWith, List.getElem?_eq_getElem hj,
    List.getElem?_eq_getElem hj']
  rfl

lemma mergeRow_eq_nil_iff (n1 n2 : Nat) (x y : List Bool) :
    mergeRow n1 n2 x y = [] ↔ x = [] ∧ y = [] := by
  unfold mergeRow
  split_ifs with h1 h2
  · constructor
    · intro h
      have : y = [] := (List.append_eq_nil.mp h).2
      rw [this] at h1
      exact absurd h1.2 (by simp)
    · rintro ⟨-, hy⟩
      rw [hy] at h1
      exact absurd h1.2 (by simp)
  · constructor
    · intro h
      have : x = [] := (List.append_eq_nil.mp h).1
      rw [this] at h2
      exact absurd h2.1 (by simp)
    · rintro ⟨hx, -⟩
      rw [hx] at h2
      exact absurd h2.1 (by simp)
  · exact List.append_eq_nil

lemma mergeRow_length (n1 n2 : Nat) (x y : List Bool)
    (hx : x = [] ∨ x.length = n1) (hy : y = [] ∨ y.length = n2)
    (hne : ¬(x = [] ∧ y = [])) : (mergeRow n1 n2 x y).length = n1 + n2 := by
  unfold mergeRow
  rcases hx with hx | hx <;> rcases hy with hy | hy
  · exact absurd ⟨hx, hy⟩ hne
  · subst hx
    have hy0 : 0 < y.length := by
      rcases Nat.eq_zero_or_pos y.length with h | h
      · exact absurd ⟨rfl, List.length_eq_zero.mp h⟩ hne
      · exact h
    rw [if_pos ⟨rfl, hy0⟩, List.length_append, List.length_replicate, hy]
  · subst hy
    have hx0 : 0 < x.length := by
      rcases Nat.eq_zero_or_pos x.length with h | h
      · exact absurd ⟨List.length_eq_zero.mp h, rfl⟩ hne
      · exact h
    rw [if_neg (by simp [hx0.ne']), if_pos ⟨hx0, rfl⟩, List.length_append,
      List.length_replicate, hx]
  · by_cases hx0 : x.length = 0
    · rw [List.length_eq_zero.mp hx0] at hne hx ⊢
      by_cases hy0 : 0 < y.length
      · rw [if_pos ⟨rfl, hy0⟩, List.length_append, List.length_replicate, hy]
      · exact absurd ⟨rfl, List.length_eq_zero.mp (Nat.eq_zero_of_not_pos hy0)⟩ hne
    · by_cases hy0 : y.length = 0
      · rw [if_neg (by simp [hx0]), if_pos ⟨Nat.pos_of_ne_zero hx0, hy0⟩,
          List.length_append, List.length_replicate, hx, ← hy, hy0]
      · rw [if_neg (by simp [hx0]), if_neg (by simp [hy0]), List.length_append, hx, hy]

lemma mergeRow_getD_of_lt_left (n1 n2 : Nat) (x y : List Bool) (k : Nat)
    (hk : k < x.length) :
    (mergeRow n1 n2 x y).getD k false = x.getD k false := by
  unfold mergeRow
  split_ifs with h1 h2
  · exact absurd h1.1 (by omega)
  · exact getD_append_left _ _ _ hk
  · exact getD_append_left _ _ _ hk

lemma mergeRow_getD_low (n1 n2 : Nat) (x y : List Bool)
    (hx : x = [] ∨ x.length = n1) (i : Nat) (hi : i < n1) :
    (mergeRow n1 n2 x y).getD i false = x.getD i false := by
  rcases hx with hx | hx
  · subst hx
    unfold mergeRow
    split_ifs with h1 h2
    · rw [getD_append_left _ _ _ (by rw [List.length_replicate]; exact hi),
        getD_replicate_false]
      rfl
    · exact absurd h2.1 (by simp)
    · have hy : y = [] := by
        rcases Nat.eq_zero_or_pos y.length with h | h
        · exact List.length_eq_zero.mp h
        · exact absurd ⟨rfl, h⟩ h1
      rw [hy]
      rfl
  · exact mergeRow_getD_of_lt_left _ _ _ _ _ (by rw [hx]; exact hi)

lemma mergeRow_getD_high (n1 n2 : Nat) (x y : List Bool)
    (hx : x = [] ∨ x.length = n1) (hy : y = [] ∨ y.length = n2) (j : Nat) (hj : j < n2) :
    (mergeRow n1 n2 x y).getD (n1 + j) false = y.getD j false := by
  unfold mergeRow
  rcases hx with hx | hx <;> rcases hy with hy | hy
  · subst hx; subst hy
    rw [if_neg (by simp), if_neg (by simp)]
    rfl
  · subst hx
    have hy0 : 0 < y.length := by rw [hy]; omega
    rw [if_pos ⟨rfl, hy0⟩,
      getD_append_right _ _ _ (by rw [List.length_replicate]; omega),
      List.length_replicate, Nat.add_sub_cancel_left]
  · subst hy
    by_cases hx0 : x.length = 0
    · rw [if_neg (by simp), if_neg (by simp [hx0])]
      rw [List.length_eq_zero.mp hx0]
      rfl
    · rw [if_neg (by simp [hx0]), if_pos ⟨Nat.pos_of_ne_zero hx0, rfl⟩,
        getD_append_right _ _ _ (by omega), hx, Nat.add_sub_cancel_left,
        getD_replicate_false]
      rfl
  · by_cases hx0 : x.length = 0
    · have hy0 : 0 < y.length := by rw [hy]; omega
      rw [if_pos ⟨hx0, hy0⟩,
        getD_append_right _ _ _ (by rw [List.length_replicate]; omega),
        List.length_replicate, Nat.add_sub_cancel_left]
    · have hy0 : ¬y.length = 0 := by rw [hy]; omega
      rw [if_neg (by simp [hx0]), if_neg (by simp [hy0]),
        getD_append_right _ _ _ (by omega), hx, Nat.add_sub_cancel_left]

lemma Wf_merge {A other C : Bigsi} (hwA : Wf A) (hwB : Wf other)
    (h : Bigsi.merge A other = some C) : Wf C := by
  obtain ⟨_, _, _, _, hCacc⟩ := merge_eq_some h
  rw [Wf_iff] at hwA hwB ⊢
  intro j
  by_cases hj : j < A.bigsi.length
  · rw [merge_rowAt h j hj, hCacc]
    by_cases hxy : rowAt A.bigsi j = [] ∧ rowAt other.bigsi j = []
    · left; exact (mergeRow_eq_nil_iff _ _ _ _).mpr hxy
    · right; exact mergeRow_length _ _ _ _ (hwA j) (hwB j) hxy
  · left
    exact rowAt_of_ge _ _ (by rw [merge_length h]; exact Nat.le_of_not_lt hj)

/-! ### `Marked` preservation -/

lemma Marked_insert (hash : String → Nat → Nat) {B B₁ : Bigsi} {a a' : Nat} {v v' : String}
    (hM : Marked hash a v B) (h : Bigsi.insert hash B a' v' = some B₁) :
    Marked hash a v B₁ := by
  obtain ⟨hgo, hη, hacc⟩ := insert_eq_some hash h
  obtain ⟨ha, hbits⟩ := hM
  refine ⟨by rw [hacc]; exact ha, ?_⟩
  intro i hi
  rw [hη] at hi
  have hlen : B₁.bigsi.length = B.bigsi.length := insertGo_length hash v' a' _ _ _ hgo
  have hbk : bucket hash B₁.bigsi v i = bucket hash B.bigsi v i := by
    simp [bucket, hlen]
  rw [hbk]
  exact insertGo_mono hash v' a' _ _ _ hgo _ a (hbits i hi)

lemma Marked_slim (hash : String → Nat → Nat) {B : Bigsi} {a : Nat} {v : String}
    (hM : Marked hash a v B) : Marked hash a v B.slim := by
  obtain ⟨ha, hbits⟩ := hM
  refine ⟨by rw [slim_accessions]; exact ha, ?_⟩
  intro i hi
  rw [slim_num_hashes] at hi
  have hbk : bucket hash B.slim.bigsi v i = bucket hash B.bigsi v i := by
    simp [bucket, slim_length]
  rw [hbk, rowAt_slim]
  have hb := hbits i hi
  rw [if_neg fun hrep => by rw [hrep, getD_replicate_false] at hb; exact Bool.noConfusion hb]
  exact hb

lemma Marked_merge (hash : String → Nat → Nat) {A other C : Bigsi} {a : Nat} {v : String}
    (hM : Marked hash a v A) (h : Bigsi.merge A other = some C) :
    Marked hash a v C := by
  obtain ⟨ha, hbits⟩ := hM
  obtain ⟨_, _, _, hCη, hCacc⟩ := merge_eq_some h
  refine ⟨by rw [hCacc]; exact Nat.lt_of_lt_of_le ha (Nat.le_add_right _ _), ?_⟩
  intro i hi
  rw [hCη] at hi
  have hbk : bucket hash C.bigsi v i = bucket hash A.bigsi v i := by
    simp [bucket, merge_length h]
  rw [hbk]
  have hb := hbits i hi
  by_cases hm : A.bigsi = []
  · rw [hm] at hb
    rw [rowAt] at hb
    simp at hb
  · have hjlt := bucket_lt hash A.bigsi v i hm
    rw [merge_rowAt h _ hjlt]
    rw [mergeRow_getD_of_lt_left _ _ _ _ _ (getD_true_lt _ _ hb)]
    exact hb

lemma Marked_mem_hitsSpec (hash : String → Nat → Nat) {B : Bigsi} {a : Nat} {v : String}
    (hM : Marked hash a v B) : a ∈ hitsSpec hash B v := by
  obtain ⟨ha, hbits⟩ := hM
  unfold hitsSpec
  have hne : ¬anyEmpty hash B.bigsi v B.num_hashes = true := by
    intro he
    obtain ⟨i, hi, hemp⟩ := (anyEmpty_iff hash B.bigsi v B.num_hashes).mp he
    have := hbits i (List.mem_range.mp hi)
    rw [hemp] at this
    exact Bool.noConfusion this
  rw [if_neg hne]
  refine List.mem_filter.mpr ⟨List.mem_range.mpr ha, ?_⟩
  unfold allBits
  rw [List.all_eq_true]
  intro i hi
  exact hbits i (List.mem_range.mp hi)

/-! ### Step and Reach invariants -/

lemma Step_num_hashes (hash : String → Nat → Nat) {B B' : Bigsi} (h : Step hash B B') :
    B'.num_hashes = B.num_hashes := by
  cases h with
  | insert a v hins => exact (insert_eq_some hash hins).2.1
  | slim => exact slim_num_hashes _
  | merge other hwo hm => exact (merge_eq_some hm).2.2.2.1

lemma Step_length (hash : String → Nat → Nat) {B B' : Bigsi} (h : Step hash B B') :
    B'.bigsi.length = B.bigsi.length := by
  cases h with
  | insert a v hins =>
    obtain ⟨hgo, _, _⟩ := insert_eq_some hash hins
    exact insertGo_length hash v a _ _ _ hgo
  | slim => exact slim_length _
  | merge other hwo hm => exact merge_length hm

lemma Step_Wf (hash : String → Nat → Nat) {B B' : Bigsi} (hw : Wf B) (h : Step hash B B') :
    Wf B' := by
  cases h with
  | insert a v hins => exact Wf_insert hash hw hins
  | slim => exact Wf_slim hw
  | merge other hwo hm => exact Wf_merge hw hwo hm

lemma Step_accessions_le (hash : String → Nat → Nat) {B B' : Bigsi} (h : Step hash B B') :
    B.accessions ≤ B'.accessions := by
  cases h with
  | insert a v hins => exact Nat.le_of_eq (insert_eq_some hash hins).2.2.symm
  | slim => exact Nat.le_of_eq (slim_accessions _).symm
  | merge other hwo hm =>
    rw [(merge_eq_some hm).2.2.2.2]
    exact Nat.le_add_right _ _

lemma Step_Marked (hash : String → Nat → Nat) {B B' : Bigsi} {a : Nat} {v : String}
    (hM : Marked hash a v B) (h : Step hash B B') : Marked hash a v B' := by
  cases h with
  | insert a' v' hins => exact Marked_insert hash hM hins
  | slim => exact Marked_slim hash hM
  | merge other hwo hm => exact Marked_merge hash hM hm

lemma Reach_inv (hash : String → Nat → Nat) {B₁ B₂ : Bigsi} (h : Reach hash B₁ B₂) :
    Wf B₁ → Wf B₂ ∧ B₂.bigsi.length = B₁.bigsi.length ∧ B₁.accessions ≤ B₂.accessions := by
  induction h with
  | refl => exact fun hw => ⟨hw, rfl, Nat.le_refl _⟩
  | tail hr hs ih =>
    intro hw
    obtain ⟨hw₂, hlen₂, hacc₂⟩ := ih hw
    exact ⟨Step_Wf hash hw₂ hs, by rw [Step_length hash hs]; exact hlen₂,
      Nat.le_trans hacc₂ (Step_accessions_le hash hs)⟩

lemma Reach_Marked (hash : String → Nat → Nat) {B₁ B₂ : Bigsi} {a : Nat} {v : String}
    (h : Reach hash B₁ B₂) (hM : Marked hash a v B₁) : Marked hash a v B₂ := by
  induction h with
  | refl => exact hM
  | tail hr hs ih => exact Step_Marked hash ih hs

/-! ### `slim` transparency for queries -/

lemma all_congr_mem {α : Type} (l : List α) (p q : α → Bool) (h : ∀ x ∈ l, p x = q x) :
    l.all p = l.all q := by
  induction l with
  | nil => rfl
  | cons x xs ih =>
    rw [List.all_cons, List.all_cons, h x (List.mem_cons_self x xs),
      ih fun y hy => h y (List.mem_cons_of_mem _ hy)]

lemma bucket_slim (hash : String → Nat → Nat) (B : Bigsi) (v : String) (i : Nat) :
    bucket hash B.slim.bigsi v i = bucket hash B.bigsi v i := by
  simp [bucket, slim_length]

lemma hitsSpec_slim (hash : String → Nat → Nat) (B : Bigsi) (v : String) :
    hitsSpec hash B.slim v = hitsSpec hash B v := by
  unfold hitsSpec
  rw [slim_accessions, slim_num_hashes]
  by_cases hB : anyEmpty hash B.bigsi v B.num_hashes = true
  · obtain ⟨i, hi, hemp⟩ := (anyEmpty_iff hash B.bigsi v B.num_hashes).mp hB
    rw [if_pos hB, if_pos ((anyEmpty_iff hash B.slim.bigsi v B.num_hashes).mpr
      ⟨i, hi, by rw [bucket_slim, rowAt_slim, hemp]; split_ifs <;> rfl⟩)]
  · by_cases hrep : ∃ i ∈ List.range B.num_hashes,
        rowAt B.bigsi (bucket hash B.bigsi v i) = List.replicate B.accessions false
    · obtain ⟨i, hi, hrepi⟩ := hrep
      rw [if_neg hB, if_pos ((anyEmpty_iff hash B.slim.bigsi v B.num_hashes).mpr
        ⟨i, hi, by rw [bucket_slim, rowAt_slim, hrepi, if_pos rfl]⟩)]
      symm
      rw [List.filter_eq_nil_iff]
      intro k _ hall
      have := List.all_eq_true.mp hall i hi
      rw [hrepi, getD_replicate_false] at this
      exact Bool.noConfusion this
    · have hrows : ∀ i ∈ List.range B.num_hashes,
          rowAt B.slim.bigsi (bucket hash B.slim.bigsi v i)
            = rowAt B.bigsi (bucket hash B.bigsi v i) := by
        intro i hi
        rw [bucket_slim, rowAt_slim,
          if_neg fun hc => hrep ⟨i, hi, hc⟩]
      have hslimE : ¬anyEmpty hash B.slim.bigsi v B.num_hashes = true := by
        intro he
        obtain ⟨i, hi, hemp⟩ := (anyEmpty_iff hash B.slim.bigsi v B.num_hashes).mp he
        rw [hrows i hi] at hemp
        exact hB ((anyEmpty_iff hash B.bigsi v B.num_hashes).mpr ⟨i, hi, hemp⟩)
      rw [if_neg hB, if_neg hslimE]
      apply List.filter_congr
      intro k _
      unfold allBits
      exact all_congr_mem _ _ _ fun i hi => by rw [hrows i hi]

/-! ### `merge` and queries -/

lemma hitsSpec_merge_mem (hash : String → Nat → Nat) {A other C : Bigsi} (v : String)
    (hwA : Wf A) (hwB : Wf other) (hmA : A.bigsi ≠ [])
    (h : Bigsi.merge A other = some C) :
    (∀ i < A.accessions, (i ∈ hitsSpec hash C v ↔ i ∈ hitsSpec hash A v)) ∧
      (∀ j < other.accessions,
        (A.accessions + j ∈ hitsSpec hash C v ↔ j ∈ hitsSpec hash other v)) := by
  obtain ⟨hη, hlen2, _, hCη, hCacc⟩ := merge_eq_some h
  have hbkA : ∀ t, bucket hash C.bigsi v t = bucket hash A.bigsi v t := by
    intro t; simp [bucket, merge_length h]
  have hbkB : ∀ t, bucket hash other.bigsi v t = bucket hash A.bigsi v t := by
    intro t; simp [bucket, hlen2]
  have hrowC : ∀ t, rowAt C.bigsi (bucket hash C.bigsi v t)
      = mergeRow A.accessions other.accessions
          (rowAt A.bigsi (bucket hash A.bigsi v t))
          (rowAt other.bigsi (bucket hash other.bigsi v t)) := by
    intro t
    rw [hbkA, hbkB, merge_rowAt h _ (bucket_lt hash A.bigsi v t hmA)]
  have hwA' := (Wf_iff A).mp hwA
  have hwB' := (Wf_iff other).mp hwB
  unfold hitsSpec
  rw [hCη, hCacc]
  by_cases hEC : anyEmpty hash C.bigsi v C.num_hashes = true
  · -- a merged visited row is empty: both inputs' rows there are empty too
    obtain ⟨t, ht, hemp⟩ := (anyEmpty_iff hash C.bigsi v C.num_hashes).mp hEC
    rw [hCη] at ht
    rw [hrowC t] at hemp
    obtain ⟨hxe, hye⟩ := (mergeRow_eq_nil_iff _ _ _ _).mp hemp
    have hEA : anyEmpty hash A.bigsi v A.num_hashes = true :=
      (anyEmpty_iff hash A.bigsi v A.num_hashes).mpr ⟨t, ht, hxe⟩
    have hEB : anyEmpty hash other.bigsi v other.num_hashes = true :=
      (anyEmpty_iff hash other.bigsi v other.num_hashes).mpr ⟨t, hη ▸ ht, hye⟩
    rw [if_pos ((anyEmpty_iff hash C.bigsi v A.num_hashes).mpr
        ⟨t, ht, by rw [hrowC t]; exact hemp⟩),
      if_pos hEA, if_pos hEB]
    simp
  · have hECA : ¬anyEmpty hash C.bigsi v A.num_hashes = true := by
      rw [← hCη]; exact hEC
    rw [if_neg hECA]
    constructor
    · intro i hi
      have hbit : ∀ t, (rowAt C.bigsi (bucket hash C.bigsi v t)).getD i false
          = (rowAt A.bigsi (bucket hash A.bigsi v t)).getD i false := by
        intro t
        rw [hrowC t]
        exact mergeRow_getD_low _ _ _ _ (hwA' _) i hi
      have hall : allBits hash C.bigsi v A.num_hashes i
          = allBits hash A.bigsi v A.num_hashes i := by
        unfold allBits
        exact all_congr_mem _ _ _ fun t _ => hbit t
      rw [List.mem_filter, hall]
      by_cases hEA : anyEmpty hash A.bigsi v A.num_hashes = true
      · obtain ⟨t, ht, hxe⟩ := (anyEmpty_iff hash A.bigsi v A.num_hashes).mp hEA
        rw [if_pos hEA]
        constructor
        · rintro ⟨-, hallA⟩
          have := List.all_eq_true.mp hallA t ht
          rw [hxe] at this
          exact Bool.noConfusion this
        · intro hmem; exact absurd hmem (List.not_mem_nil i)
      · rw [if_neg hEA, List.mem_filter]
        constructor
        · rintro ⟨-, hb⟩; exact ⟨List.mem_range.mpr hi, hb⟩
        · rintro ⟨-, hb⟩; exact ⟨List.mem_range.mpr (by omega), hb⟩
    · intro j hj
      have hbit : ∀ t, (rowAt C.bigsi (bucket hash C.bigsi v t)).getD (A.accessions + j) false
          = (rowAt other.bigsi (bucket hash other.bigsi v t)).getD j false := by
        intro t
        rw [hrowC t]
        exact mergeRow_getD_high _ _ _ _ (hwA' _) (hwB' (bucket hash other.bigsi v t)) j hj
      have hall : allBits hash C.bigsi v A.num_hashes (A.accessions + j)
          = allBits hash other.bigsi v other.num_hashes j := by
        unfold allBits
        rw [hη]
        exact all_congr_mem _ _ _ fun t _ => by rw [← hbit t]
      rw [List.mem_filter, hall]
      by_cases hEB : anyEmpty hash other.bigsi v other.num_hashes = true
      · obtain ⟨t, ht, hye⟩ := (anyEmpty_iff hash other.bigsi v other.num_hashes).mp hEB
        rw [if_pos hEB]
        constructor
        · rintro ⟨-, hallB⟩
          have := List.all_eq_true.mp hallB t ht
          rw [hye] at this
          exact Bool.noConfusion this
        · intro hmem; exact absurd hmem (List.not_mem_nil j)
      · rw [if_neg hEB, List.mem_filter]
        constructor
        · rintro ⟨-, hb⟩; exact ⟨List.mem_range.mpr hj, hb⟩
        · rintro ⟨-, hb⟩; exact ⟨List.mem_range.mpr (by omega), hb⟩

/-! ### Serialization round trip -/

lemma decodeBits_encode (r : List Bool) (rest : List Nat) :
    decodeBits r.length (r.map encBit ++ rest) = some (r, rest) := by
  induction r with
  | nil => rfl
  | cons b bs ih => cases b <;> simp [encBit, decodeBits, ih]

lemma decodeRows_encode (rs : List (List Bool)) (rest : List Nat) :
    decodeRows rs.length (encodeRows rs ++ rest) = some (rs, rest) := by
  induction rs generalizing rest with
  | nil => rfl
  | cons r rs ih =>
    show decodeRows (rs.length + 1)
      ((r.length :: (r.map encBit ++ encodeRows rs)) ++ rest) = some (r :: rs, rest)
    rw [List.cons_append, List.append_assoc]
    simp only [decodeRows, decodeBits_encode, ih]

/-- A concrete hash function used to instantiate witness statements. -/
def hzero : String → Nat → Nat := fun _ _ => 0

/-! ### The claims -/

/-- C1 (no false negatives): on a well-formed nonempty index, if
`insert a v` completes, then after any sequence of further completed
inserts, slims, and merges (this index on the left), `get v` completes and
its result contains `a`. -/
theorem no_false_negatives (hash : String → Nat → Nat) (B B₁ B₂ : Bigsi) (a : Nat)
    (v : String) (hw : Wf B) (hm : B.bigsi ≠ []) (ha : a < B.accessions)
    (hins : Bigsi.insert hash B a v = some B₁) (hreach : Reach hash B₁ B₂) :
    (Bigsi.get hash B₂ v).isSome = true ∧ a ∈ (Bigsi.get hash B₂ v).getD [] := by
  obtain ⟨hgo, hη₁, hacc₁⟩ := insert_eq_some hash hins
  have hw₁ : Wf B₁ := Wf_insert hash hw hins
  have hlen₁ : B₁.bigsi.length = B.bigsi.length := insertGo_length hash v a _ _ _ hgo
  have hM₁ : Marked hash a v B₁ := by
    refine ⟨by rw [hacc₁]; exact ha, ?_⟩
    intro i hi
    rw [hη₁] at hi
    exact insertGo_marks hash v a _ _ _ hgo i (List.mem_range.mpr hi)
  obtain ⟨hw₂, hlen₂, -⟩ := Reach_inv hash hreach hw₁
  have hm₂ : B₂.bigsi ≠ [] := by
    intro hc
    apply hm
    rw [← List.length_eq_zero, ← hlen₁, ← hlen₂, hc]
    rfl
  have hM₂ := Reach_Marked hash hreach hM₁
  rw [get_eq_hitsSpec hash B₂ v hw₂ hm₂]
  exact ⟨rfl, Marked_mem_hitsSpec hash hM₂⟩

/-- C1 witness: a concrete instance of `no_false_negatives`. -/
theorem no_false_negatives_witness :
    (Bigsi.get hzero ⟨[[true]], 1, 1⟩ "x").isSome = true ∧
      0 ∈ (Bigsi.get hzero ⟨[[true]], 1, 1⟩ "x").getD [] :=
  no_false_negatives hzero (Bigsi.new 1 1 1) ⟨[[true]], 1, 1⟩ ⟨[[true]], 1, 1⟩ 0 "x"
    (by decide) (by decide) (by decide) (by decide) (Reach.refl _)

/-- C2 (compaction transparency): on a well-formed index, `slim` never
changes the result of `get`; it rewrites exactly the rows equal to the
all-false row of width `accessions` to the width-0 sentinel and leaves
every row containing a true bit untouched. -/
theorem compaction_transparency (hash : String → Nat → Nat) (B : Bigsi) (v : String)
    (hw : Wf B) :
    Bigsi.get hash B.slim v = Bigsi.get hash B v ∧
      (∀ j, rowAt B.bigsi j = List.replicate B.accessions false →
        rowAt B.slim.bigsi j = []) ∧
      (∀ j k, (rowAt B.bigsi j).getD k false = true →
        rowAt B.slim.bigsi j = rowAt B.bigsi j) := by
  refine ⟨?_, ?_, ?_⟩
  · by_cases hm : B.bigsi = []
    · have hBeq : B.slim = B := by
        obtain ⟨rows, eta, acc⟩ := B
        simp only at hm
        subst hm
        rfl
      rw [hBeq]
    · have hmslim : B.slim.bigsi ≠ [] := by
        intro hc
        apply hm
        rw [← List.length_eq_zero, ← slim_length B, hc]
        rfl
      rw [get_eq_hitsSpec hash B v hw hm,
        get_eq_hitsSpec hash B.slim v (Wf_slim hw) hmslim, hitsSpec_slim]
  · intro j hj
    rw [rowAt_slim, if_pos hj]
  · intro j k hk
    rw [rowAt_slim,
      if_neg fun hrep => by rw [hrep, getD_replicate_false] at hk; exact Bool.noConfusion hk]

/-- C2 witness: a concrete instance of `compaction_transparency`. -/
theorem compaction_transparency_witness :
    Bigsi.get hzero (Bigsi.new 2 2 1).slim "x" = Bigsi.get hzero (Bigsi.new 2 2 1) "x" :=
  (compaction_transparency hzero (Bigsi.new 2 2 1) "x" (by decide)).1

/-- C3 (merge preserves per-accession query behavior): after a successful
merge of well-formed indexes, for every value the low accessions answer as
in `A` alone and the shifted high accessions answer as in `other` alone. -/
theorem merge_query_behavior (hash : String → Nat → Nat) (A other C : Bigsi) (v : String)
    (hwA : Wf A) (hwB : Wf other) (hmA : A.bigsi ≠ [])
    (h : Bigsi.merge A other = some C) :
    (Bigsi.get hash A v).isSome = true ∧ (Bigsi.get hash other v).isSome = true ∧
      (Bigsi.get hash C v).isSome = true ∧
      (∀ i < A.accessions,
        (i ∈ (Bigsi.get hash C v).getD [] ↔ i ∈ (Bigsi.get hash A v).getD [])) ∧
      (∀ j < other.accessions,
        (A.accessions + j ∈ (Bigsi.get hash C v).getD [] ↔
          j ∈ (Bigsi.get hash other v).getD [])) := by
  obtain ⟨hη, hlen2, _, _, _⟩ := merge_eq_some h
  have hmB : other.bigsi ≠ [] := by
    intro hc
    apply hmA
    rw [← List.length_eq_zero, hlen2, hc]
    rfl
  have hmC : C.bigsi ≠ [] := by
    intro hc
    apply hmA
    rw [← List.length_eq_zero, ← merge_length h, hc]
    rfl
  have hwC := Wf_merge hwA hwB h
  rw [get_eq_hitsSpec hash A v hwA hmA, get_eq_hitsSpec hash other v hwB hmB,
    get_eq_hitsSpec hash C v hwC hmC]
  obtain ⟨hlow, hhigh⟩ := hitsSpec_merge_mem hash v hwA hwB hmA h
  exact ⟨rfl, rfl, rfl, by simpa using hlow, by simpa using hhigh⟩

/-- C3 witness: a concrete instance of `merge_query_behavior`. -/
theorem merge_query_behavior_witness :
    (Bigsi.get hzero (Bigsi.new 1 1 1) "x").isSome = true :=
  (merge_query_behavior hzero (Bigsi.new 1 1 1) (Bigsi.new 1 1 1)
    ⟨[[false, false]], 1, 2⟩ "x" (by decide) (by decide) (by decide) (by decide)).1

/-- C4 counterexample: merging two indexes whose row 0 is the width-0
sentinel in BOTH inputs succeeds but leaves that row at width 0, not at
width `A.accessions + other.accessions = 2`. -/
theorem merge_row_width_counterexample :
    Bigsi.merge (Bigsi.new 1 1 1).slim (Bigsi.new 1 1 1).slim =
      some { bigsi := [[]], num_hashes := 1, accessions := 2 } := by decide

/-- C4 (amended): after a successful merge of well-formed indexes, a row
that is the sentinel in both inputs stays the width-0 sentinel, and every
other row has width exactly `A.accessions + other.accessions`. -/
theorem merge_row_width_amended (A other C : Bigsi) (hwA : Wf A) (hwB : Wf other)
    (h : Bigsi.merge A other = some C) :
    ∀ j < C.bigsi.length,
      ((rowAt A.bigsi j = [] ∧ rowAt other.bigsi j = []) → rowAt C.bigsi j = []) ∧
      ((rowAt A.bigsi j ≠ [] ∨ rowAt other.bigsi j ≠ []) →
        (rowAt C.bigsi j).length = A.accessions + other.accessions) := by
  intro j hj
  have hjA : j < A.bigsi.length := by rw [← merge_length h]; exact hj
  rw [merge_rowAt h j hjA]
  constructor
  · rintro ⟨hx, hy⟩
    exact (mergeRow_eq_nil_iff _ _ _ _).mpr ⟨hx, hy⟩
  · intro hne
    refine mergeRow_length _ _ _ _ ((Wf_iff A).mp hwA j) ((Wf_iff other).mp hwB j) ?_
    rintro ⟨hc1, hc2⟩
    rcases hne with hne | hne
    · exact hne hc1
    · exact hne hc2

/-- C4 witness: a concrete instance of `merge_row_width_amended`. -/
theorem merge_row_width_amended_witness :
    (rowAt ([[false, false]] : List (List Bool)) 0).length = 1 + 1 :=
  (merge_row_width_amended (Bigsi.new 1 1 1) (Bigsi.new 1 1 1)
      ⟨[[false, false]], 1, 2⟩ (by decide) (by decide) (by decide) 0 (by decide)).2
    (Or.inl (by decide))

/-- C5 (merge parameter mismatch is fatal): `merge` panics exactly when the
hash counts or the row counts differ; the check precedes any row rebuild
and `other` is read-only, so no partially merged state is observable. -/
theorem merge_mismatch_fatal (A other : Bigsi) :
    Bigsi.merge A other = none ↔
      (A.num_hashes ≠ other.num_hashes ∨ A.bigsi.length ≠ other.bigsi.length) := by
  unfold Bigsi.merge
  split_ifs with hc
  · exact iff_of_true rfl hc
  · exact iff_of_false (by simp) hc

/-- C6 counterexample: after `slim` compacts the only row of a 2-accession
index to the width-0 sentinel, the in-range `insert 0` whose hash lands on
that row panics instead of completing. -/
theorem insert_sentinel_counterexample :
    (Bigsi.new 1 2 1).slim.bigsi = [[]] ∧
      Bigsi.insert hzero (Bigsi.new 1 2 1).slim 0 "x" = none := by decide

/-- C6 (amended): whenever some visited bucket holds the width-0 sentinel
row, `insert` panics (`BitVec::set` is out of bounds on a width-0 row);
only `get`, `get_bv` and `merge` treat the sentinel as all-false. -/
theorem insert_sentinel_panics (hash : String → Nat → Nat) (B : Bigsi) (a : Nat)
    (v : String)
    (hex : ∃ i < B.num_hashes, rowAt B.bigsi (bucket hash B.bigsi v i) = []) :
    Bigsi.insert hash B a v = none := by
  unfold Bigsi.insert
  rw [insertGo_none hash v a _ _ ?_]
  · rfl
  · obtain ⟨i, hi, hemp⟩ := hex
    refine ⟨i, List.mem_range.mpr hi, ?_⟩
    rw [hemp]
    exact Nat.zero_le a

/-- C6 witness: a concrete instance of `insert_sentinel_panics`. -/
theorem insert_sentinel_panics_witness :
    Bigsi.insert hzero (Bigsi.new 1 2 1).slim 1 "x" = none :=
  insert_sentinel_panics hzero (Bigsi.new 1 2 1).slim 1 "x" ⟨0, by decide, by decide⟩

/-- C7 (short-circuit asymmetry): when a visited bucket holds the sentinel,
`get` returns the empty hit list and `get_bv` returns the width-0 sentinel
row itself; otherwise `get_bv` returns the AND of the visited rows starting
from all-true of width `accessions`. -/
theorem query_short_circuit_asymmetry (hash : String → Nat → Nat) (B : Bigsi)
    (v : String) (hm : B.bigsi ≠ []) :
    ((∃ i < B.num_hashes, rowAt B.bigsi (bucket hash B.bigsi v i) = []) →
      Bigsi.get hash B v = some [] ∧ Bigsi.get_bv hash B v = some []) ∧
    ((∀ i < B.num_hashes, rowAt B.bigsi (bucket hash B.bigsi v i) ≠ []) →
      Bigsi.get_bv hash B v = some ((List.range B.num_hashes).foldl
        (fun acc i => List.zipWith and acc (rowAt B.bigsi (bucket hash B.bigsi v i)))
        (List.replicate B.accessions true))) := by
  constructor
  · rintro ⟨i, hi, hemp⟩
    have hempt := getGo_empt hash v B.bigsi hm (List.range B.num_hashes)
      (List.replicate B.accessions true) ⟨i, List.mem_range.mpr hi, hemp⟩
    unfold Bigsi.get Bigsi.get_bv
    rw [hempt]
    exact ⟨rfl, rfl⟩
  · intro hall
    have hfold := getGo_foldl hash v B.bigsi hm (List.range B.num_hashes)
      (List.replicate B.accessions true) fun i hi => hall i (List.mem_range.mp hi)
    unfold Bigsi.get_bv
    rw [hfold]

/-- C7 witness: a concrete instance of `query_short_circuit_asymmetry`. -/
theorem query_short_circuit_asymmetry_witness :
    Bigsi.get hzero (Bigsi.new 1 1 1).slim "x" = some [] ∧
      Bigsi.get_bv hzero (Bigsi.new 1 1 1).slim "x" = some [] :=
  (query_short_circuit_asymmetry hzero (Bigsi.new 1 1 1).slim "x" (by decide)).1
    ⟨0, by decide, by decide⟩

/-- C8 (serialization round-trip): decoding the encoded blob of any index
reproduces it exactly (row widths and contents, hash count, accession
count).  The encoding is modelled from the spec, since the byte layout
lives in the external `bincode` crate. -/
theorem serialization_round_trip (B : Bigsi) :
    deserializeBigsi (serializeBigsi B) = some B := by
  obtain ⟨rows, eta, acc⟩ := B
  show deserializeBigsi (rows.length :: (encodeRows rows ++ [eta, acc])) = _
  simp only [deserializeBigsi]
  rw [decodeRows_encode]

/-- C9 (structural invariants): every index reached from `new m n eta` by
completed operations keeps exactly `m` rows, stays well-formed (every
non-sentinel row has width `accessions`), and its accession count never
drops below `n`; accessions never decrease across any step, and they grow
only via merge: a merge adds exactly the other index's accession count,
while a completed insert and a slim leave accessions unchanged. -/
theorem structural_invariants (hash : String → Nat → Nat) (m n eta : Nat) (B : Bigsi)
    (h : Reach hash (Bigsi.new m n eta) B) :
    B.bigsi.length = m ∧ Wf B ∧ n ≤ B.accessions ∧
      (∀ B₁ B₂ : Bigsi, Step hash B₁ B₂ → B₁.accessions ≤ B₂.accessions) ∧
      (∀ B₁ B₂ o : Bigsi, Bigsi.merge B₁ o = some B₂ →
        B₂.accessions = B₁.accessions + o.accessions) ∧
      (∀ (B₁ B₂ : Bigsi) (a : Nat) (v : String),
        Bigsi.insert hash B₁ a v = some B₂ → B₂.accessions = B₁.accessions) ∧
      (∀ B₁ : Bigsi, B₁.slim.accessions = B₁.accessions) := by
  obtain ⟨hw, hlen, hacc⟩ := Reach_inv hash h (Wf_new m n eta)
  refine ⟨?_, hw, hacc, fun B₁ B₂ hs => Step_accessions_le hash hs,
    fun B₁ B₂ o hmrg => (merge_eq_some hmrg).2.2.2.2,
    fun B₁ B₂ a v hins => (insert_eq_some hash hins).2.2,
    fun B₁ => slim_accessions B₁⟩
  rw [hlen]
  exact List.length_replicate _ _

/-- C9 witness: a concrete instance of `structural_invariants`. -/
theorem structural_invariants_witness :
    (Bigsi.new 2 3 1).bigsi.length = 2 ∧ 3 ≤ (Bigsi.new 2 3 1).accessions :=
  ⟨(structural_invariants hzero 2 3 1 (Bigsi.new 2 3 1) (Reach.refl _)).1,
    (structural_invariants hzero 2 3 1 (Bigsi.new 2 3 1) (Reach.refl _)).2.2.1⟩

/-- C10 (out-of-range insert panics): whenever the accession index is at
least the width of some visited row — in particular `a ≥ accessions` on a
freshly built index — `insert` panics rather than growing the row,
wrapping, or silently doing nothing. -/
theorem insert_out_of_range_panics (hash : String → Nat → Nat) (B : Bigsi) (a : Nat)
    (v : String)
    (hex : ∃ i < B.num_hashes, (rowAt B.bigsi (bucket hash B.bigsi v i)).length ≤ a) :
    Bigsi.insert hash B a v = none := by
  unfold Bigsi.insert
  rw [insertGo_none hash v a _ _ ?_]
  · rfl
  · obtain ⟨i, hi, hle⟩ := hex
    exact ⟨i, List.mem_range.mpr hi, hle⟩

/-- C10 witness: a concrete instance of `insert_out_of_range_panics`. -/
theorem insert_out_of_range_panics_witness :
    Bigsi.insert hzero (Bigsi.new 1 1 1) 5 "x" = none :=
  insert_out_of_range_panics hzero (Bigsi.new 1 1 1) 5 "x" ⟨0, by decide, by decide⟩

end BigsiRs
